import Mathlib

/-!
Verification of the `tg/hyperloglog` Go package (base HyperLogLog estimator).

The Go source is shallowly embedded: `uint8`/`uint32` arithmetic becomes `Nat`
arithmetic reduced mod `2^8` / `2^32` where Go would wrap, registers become a
`List Nat`, fallible constructors return `Except String` carrying the source's
error messages, and the `float64` estimator arithmetic of `Count` is modelled
over `ℝ`.
-/

namespace HLL

/-- Reduction mod 2^8, modelling Go `uint8` arithmetic results. -/
def u8 (x : Nat) : Nat := x % 256

/-- Reduction mod 2^32, modelling Go `uint32` arithmetic results. -/
def u32 (x : Nat) : Nat := x % 4294967296

/-- Reduction mod 2^64, modelling Go `uint64` arithmetic results. -/
def u64 (x : Nat) : Nat := x % 18446744073709551616

/-- Fuel-driven bit length: `sizeAux fuel x` is the number of binary digits of
`x`, correct whenever `x < 2^fuel`.  Structural recursion on the fuel keeps the
function kernel-reducible. -/
def sizeAux : Nat → Nat → Nat
  | 0, _ => 0
  | fuel + 1, x => if x = 0 then 0 else sizeAux fuel (x / 2) + 1

/-- Number of binary digits of a 32-bit value. -/
def size32 (x : Nat) : Nat := sizeAux 32 (u32 x)

/-- `clz32` from src/common.go: `bits.LeadingZeros32`, the number of leading
zero bits in the 32-bit representation. -/
def clz32 (x : Nat) : Nat := 32 - size32 x

/-- `eb32` from src/common.go: extract bits `[lo, hi)` of a `uint32` using
LSB-0 numbering.  `hi` and `lo` are `uint8` in Go, so the difference `hi - lo`
wraps mod 256; a shift count of 32 or more yields 0 on `uint32`, which the
`u32` reduction reproduces (`2^k % 2^32 = 0` for `k ≥ 32`). -/
def eb32 (bits hi lo : Nat) : Nat :=
  let d := u8 (u8 hi + 256 - u8 lo)
  let m := u32 (u32 (u32 (1 <<< d) + 4294967296 - 1) <<< u8 lo)
  (u32 bits &&& m) >>> u8 lo

/-- The `HyperLogLog` struct from src/hyperloglog.go: register array `reg`
(`[]uint8`), register count `m` (`uint32`) and precision `p` (`uint8`). -/
structure HyperLogLog where
  reg : List Nat
  m : Nat
  p : Nat
deriving DecidableEq, Repr

/-- `New` from src/hyperloglog.go: a fresh sketch with `2^precision` zero
registers, rejecting precisions outside `[4, 16]`. -/
def New (precision : Nat) : Except String HyperLogLog :=
  if precision > 16 ∨ precision < 4 then
    .error "precision must be between 4 and 16"
  else
    .ok { reg := List.replicate (1 <<< precision) 0, m := 1 <<< precision, p := precision }

/-- `NewReg` from src/hyperloglog.go: adopt a caller-supplied register buffer,
deriving `p` from its length.  The two validation failures keep the source's
distinct error messages. -/
def NewReg (reg : List Nat) : Except String HyperLogLog :=
  if reg.length > 1 <<< 16 ∨ reg.length < 1 <<< 4 then
    .error "number of registers out of range"
  else
    let p := 31 - clz32 reg.length
    let m := 1 <<< p
    if m ≠ reg.length then
      .error "invalid number of registers (must be power of 2)"
    else
      .ok { reg := reg, m := m, p := p }

/-- `Clear` from src/hyperloglog.go: reset all registers to zero, keeping
`m` and `p`. -/
def Clear (h : HyperLogLog) : HyperLogLog :=
  { h with reg := List.replicate h.m 0 }

/-- `Add` from src/hyperloglog.go: bucket the hash by its top `p` bits, form
`w` from the low `32-p` bits shifted left by `p` with the sentinel bit
`1 << (p-1)`, and raise the bucket's register to `clz32 w + 1` if larger.
Go computes `32 - h.p` and `h.p - 1` in `uint8`, modelled by the mod-256
expressions; the register access `h.reg[i]` (which would panic out of range;
`i < len(reg)` always holds for validly constructed sketches) is modelled by
`List.getD` / `List.set`. -/
def Add (h : HyperLogLog) (x : Nat) : HyperLogLog :=
  let i := eb32 x 32 (u8 (32 + 256 - u8 h.p))
  let w := u32 (u32 (x <<< u8 h.p) ||| u32 (1 <<< u8 (h.p + 255)))
  let zeroBits := clz32 w + 1
  if zeroBits > h.reg.getD i 0 then { h with reg := h.reg.set i zeroBits } else h

/-- Register combination loop of `Merge` from src/hyperloglog.go: walk the
other sketch's registers, raising each of ours to the pointwise maximum.
Registers of `h` beyond the other's length are kept, matching the Go loop
over `other.reg`; the case of a strictly longer `other` would panic in Go
(`h.reg[i]` out of range) and is unreachable for sketches of equal precision. -/
def maxRegs : List Nat → List Nat → List Nat
  | a, [] => a
  | [], _ :: _ => []
  | x :: a, y :: b => max x y :: maxRegs a b

/-- `Merge` from src/hyperloglog.go: element-wise maximum of the register
arrays, rejecting sketches of different precision.  The embedding is
functional, so the argument `other` is, by construction, never modified. -/
def Merge (h other : HyperLogLog) : Except String HyperLogLog :=
  if h.p ≠ other.p then
    .error "precisions must be equal"
  else
    .ok { h with reg := maxRegs h.reg other.reg }

/-- `alpha` from src/common.go: the bias-correction constant, special-cased
at `m ∈ {16, 32, 64}`.  `float64` arithmetic is modelled over `ℝ`. -/
noncomputable def alpha (m : Nat) : ℝ :=
  if m = 16 then 0.673
  else if m = 32 then 0.697
  else if m = 64 then 0.709
  else 0.7213 / (1 + 1.079 / (m : ℝ))

/-- `countZeros` from src/common.go: the number of registers equal to 0. -/
def countZeros (s : List Nat) : Nat := s.countP (fun v => v = 0)

/-- `linearCounting` from src/common.go: `m * ln(m / v)` over `float64`,
modelled over `ℝ`. -/
noncomputable def linearCounting (m v : Nat) : ℝ :=
  (m : ℝ) * Real.log ((m : ℝ) / (v : ℝ))

/-- `calculateEstimate` from src/common.go: `alpha(m) * m^2` over the sum of
the terms `1.0 / float64(uint64(1) << val)`, with `m = len(s)`, guarded by
the empty-slice check.  The shift `uint64(1) << val` (`val` is a `uint8`
register value) is `2^val` for `val ≤ 63` and 0 for `val ≥ 64`, modelled by
`u64 (1 <<< u8 val)`; in the latter case the Go term is `1.0/0.0 = +Inf`,
the sum is `+Inf`, and the final quotient `alpha * m * m / +Inf` is `+0`.
`ℝ` has no infinities, so that case is returned as 0 explicitly; in every
other case each term is exactly `1 / 2^val`. -/
noncomputable def calculateEstimate (s : List Nat) : ℝ :=
  if s.length = 0 then 0
  else if ∃ val ∈ s, u64 (1 <<< u8 val) = 0 then 0
  else
    let sum := (s.map fun val => 1 / ((u64 (1 <<< u8 val) : Nat) : ℝ)).sum
    alpha s.length * (s.length : ℝ) * (s.length : ℝ) / sum

/-- The constant `two32 = 1 << 32` from src/hyperloglog.go, as a real. -/
noncomputable def rtwo32 : ℝ := 4294967296

/-- Go's conversion `uint64(f)` of a nonnegative `float64`: truncation toward
zero, i.e. the floor, clamped into `Nat`. -/
noncomputable def trunc (x : ℝ) : Nat := ⌊x⌋.toNat

/-- `Count` from src/hyperloglog.go: the three-regime cardinality estimate. -/
noncomputable def Count (h : HyperLogLog) : Nat :=
  let est := calculateEstimate h.reg
  if est ≤ (h.m : ℝ) * 2.5 then
    if countZeros h.reg ≠ 0 then trunc (linearCounting h.m (countZeros h.reg))
    else trunc est
  else if est < rtwo32 / 30 then trunc est
  else trunc (-rtwo32 * Real.log (1 - est / rtwo32))

/-- Alphabet of standard base64 (RFC 4648), as used by Go's
`encoding/base64.StdEncoding`. -/
def b64chars : List Char :=
  ['A', 'B', 'C', 'D', 'E', 'F', 'G', 'H', 'I', 'J', 'K', 'L', 'M',
   'N', 'O', 'P', 'Q', 'R', 'S', 'T', 'U', 'V', 'W', 'X', 'Y', 'Z',
   'a', 'b', 'c', 'd', 'e', 'f', 'g', 'h', 'i', 'j', 'k', 'l', 'm',
   'n', 'o', 'p', 'q', 'r', 's', 't', 'u', 'v', 'w', 'x', 'y', 'z',
   '0', '1', '2', '3', '4', '5', '6', '7', '8', '9', '+', '/']

/-- Character for a 6-bit value in standard base64. -/
def encChar (i : Nat) : Char := b64chars.getD i '?'

/-- Six-bit value of a standard-base64 character, `none` outside the
alphabet (in particular for the padding character `=`). -/
def decChar (c : Char) : Option Nat := b64chars.findIdx? (fun x => x = c)

/-- Modelled from the spec: Go's `base64.StdEncoding.Encode` (the standard
library encoder called by `MarshalText`, not part of src/): standard padded
base64, three bytes to four characters, with `=` padding for a 1- or 2-byte
final group. -/
def b64encode : List Nat → List Char
  | [] => []
  | [a] => [encChar (a / 4), encChar (a % 4 * 16), '=', '=']
  | [a, b] => [encChar (a / 4), encChar (a % 4 * 16 + b / 16), encChar (b % 16 * 4), '=']
  | a :: b :: c :: rest =>
      encChar (a / 4) :: encChar (a % 4 * 16 + b / 16) ::
        encChar (b % 16 * 4 + c / 64) :: encChar (c % 64) :: b64encode rest

/-- Modelled from the spec: Go's `base64.StdEncoding.Decode` (the standard
library decoder called by `UnmarshalText`, not part of src/): four characters
to three bytes, accepting `=` padding only at the end of the input, failing
on any character outside the alphabet and on input whose length is not a
multiple of four. -/
def b64decode : List Char → Option (List Nat)
  | [] => some []
  | c0 :: c1 :: c2 :: c3 :: rest =>
      match decChar c0, decChar c1 with
      | some a, some b =>
        if c2 = '=' then
          if c3 = '=' ∧ rest = [] then some [a * 4 + b / 16] else none
        else
          match decChar c2 with
          | some c =>
            if c3 = '=' then
              if rest = [] then some [a * 4 + b / 16, b % 16 * 16 + c / 4] else none
            else
              match decChar c3 with
              | some d =>
                match b64decode rest with
                | some bs =>
                  some ((a * 4 + b / 16) :: (b % 16 * 16 + c / 4) :: (c % 4 * 64 + d) :: bs)
                | none => none
              | none => none
          | none => none
      | _, _ => none
  | _ => none

/-- `MarshalText` from src/hyperloglog.go: standard padded base64 of the raw
register bytes only (`p` and `m` are not stored).  The Go method never
returns an error. -/
def MarshalText (h : HyperLogLog) : List Char := b64encode h.reg

/-- `UnmarshalText` from src/hyperloglog.go: base64-decode the text, then
re-derive `p` and `m` by running the `NewReg` register-buffer validation on
the decoded bytes. -/
def UnmarshalText (text : List Char) : Except String HyperLogLog :=
  match b64decode text with
  | none => .error "illegal base64 data"
  | some reg => NewReg reg

/-- Little-endian 4-byte encoding of a `uint32`-sized value. -/
def encU32le (n : Nat) : List Nat :=
  [n % 256, n / 256 % 256, n / 65536 % 256, n / 16777216 % 256]

/-- Read back a little-endian 4-byte value. -/
def readU32le : List Nat → Option (Nat × List Nat)
  | a :: b :: c :: d :: rest => some (a + 256 * b + 65536 * c + 16777216 * d, rest)
  | _ => none

/-- Modelled from the spec: `GobEncode` from src/hyperloglog.go writes the
ordered triple — registers, then `m` (unsigned 32-bit), then `p` (unsigned
8-bit) — through Go's `encoding/gob`, a self-describing binary scheme whose
wire format is standard-library code not part of src/.  Following the spec's
"length-prefixed or equivalent", each field is self-framed: the register
bytes are length-prefixed, `m` is 4 bytes, `p` is 1 byte. -/
def GobEncode (h : HyperLogLog) : List Nat :=
  encU32le h.reg.length ++ h.reg ++ encU32le h.m ++ [u8 h.p]

/-- Modelled from the spec: `GobDecode` from src/hyperloglog.go reads the
same three fields back in the same order, failing on truncated input. -/
def GobDecode (b : List Nat) : Except String HyperLogLog :=
  match readU32le b with
  | none => .error "gob: missing register length"
  | some (n, rest) =>
    if n ≤ rest.length then
      match readU32le (rest.drop n) with
      | none => .error "gob: missing m"
      | some (m, rest2) =>
        match rest2 with
        | p :: _ => .ok { reg := rest.take n, m := m, p := p }
        | [] => .error "gob: missing p"
    else .error "gob: truncated registers"

/-- A mutation of a sketch: `Add` with a hash value, `Clear`, or `Merge`
with another sketch (which leaves the receiver unchanged when the precisions
differ, since `Merge` then returns an error). -/
inductive Op where
  | add : Nat → Op
  | clear : Op
  | merge : HyperLogLog → Op
deriving DecidableEq, Repr

/-- Apply one mutation to a sketch. -/
def applyOp (h : HyperLogLog) : Op → HyperLogLog
  | .add x => Add h x
  | .clear => Clear h
  | .merge other =>
    match Merge h other with
    | .ok h2 => h2
    | .error _ => h

/-- Apply a sequence of mutations left to right. -/
def runOps (h : HyperLogLog) (ops : List Op) : HyperLogLog := ops.foldl applyOp h

/-- A validly constructed sketch: precision in range, `m = 2^p` registers
whose values fit in a byte. -/
def Valid (h : HyperLogLog) : Prop :=
  4 ≤ h.p ∧ h.p ≤ 16 ∧ h.m = 2 ^ h.p ∧ h.reg.length = 2 ^ h.p ∧ ∀ x ∈ h.reg, x < 256

instance (h : HyperLogLog) : Decidable (Valid h) := by
  unfold Valid; infer_instance

/-! Helper lemmas about the bit-level primitives. -/

theorem u8_eq {x : Nat} (h : x < 256) : u8 x = x := Nat.mod_eq_of_lt h

theorem u32_eq {x : Nat} (h : x < 4294967296) : u32 x = x := Nat.mod_eq_of_lt h

theorem u32_lt (x : Nat) : u32 x < 4294967296 := Nat.mod_lt _ (by norm_num)

/-- Go's `uint64(1) << val` overflows to 0 once the `uint8` shift count
reaches the word size. -/
theorem u64_one_shiftLeft_zero {val : Nat} (h1 : 64 ≤ u8 val) :
    u64 (1 <<< u8 val) = 0 := by
  rw [Nat.one_shiftLeft]
  have : (2 : Nat) ^ u8 val = 18446744073709551616 * 2 ^ (u8 val - 64) := by
    rw [show (18446744073709551616 : Nat) = 2 ^ 64 by norm_num, ← Nat.pow_add]
    congr 1
    omega
  unfold u64
  rw [this, Nat.mul_mod_right]

theorem sizeAux_le : ∀ fuel x k, x < 2 ^ k → k ≤ fuel → sizeAux fuel x ≤ k := by
  intro fuel
  induction fuel with
  | zero => intro x k _ hk; simp [sizeAux]
  | succ f ih =>
    intro x k hx hk
    unfold sizeAux
    split
    · exact Nat.zero_le _
    · rename_i hx0
      match k, hx with
      | 0, hx => omega
      | k + 1, hx =>
        have h1 : x / 2 < 2 ^ k := by
          rw [Nat.pow_succ] at hx; omega
        have := ih (x / 2) k h1 (by omega)
        omega

theorem lt_sizeAux : ∀ fuel x k, 2 ^ k ≤ x → k < fuel → k < sizeAux fuel x := by
  intro fuel
  induction fuel with
  | zero => intro x k _ hk; omega
  | succ f ih =>
    intro x k hx hk
    have hxpos : x ≠ 0 := by
      have : 0 < 2 ^ k := Nat.pos_pow_of_pos _ (by norm_num)
      omega
    unfold sizeAux
    rw [if_neg hxpos]
    match k, hx with
    | 0, hx => omega
    | k + 1, hx =>
      have h1 : 2 ^ k ≤ x / 2 := by
        rw [Nat.pow_succ] at hx; omega
      have := ih (x / 2) k h1 (by omega)
      omega

theorem size32_le (x : Nat) : size32 x ≤ 32 :=
  sizeAux_le 32 (u32 x) 32 (by have := u32_lt x; norm_num at this ⊢; omega) le_rfl

theorem size32_of_bounds {x k : Nat} (h1 : 2 ^ k ≤ x) (h2 : x < 2 ^ (k + 1))
    (hk : k < 32) : size32 x = k + 1 := by
  have hx32 : x < 4294967296 := by
    have : 2 ^ (k + 1) ≤ 2 ^ 32 := Nat.pow_le_pow_right (by norm_num) (by omega)
    norm_num at this; omega
  have hle : sizeAux 32 (u32 x) ≤ k + 1 := sizeAux_le _ _ _ (by rwa [u32_eq hx32]) (by omega)
  have hlt : k < sizeAux 32 (u32 x) := lt_sizeAux _ _ _ (by rwa [u32_eq hx32]) (by omega)
  unfold size32
  omega

theorem size32_two_pow {p : Nat} (hp : p < 32) : size32 (2 ^ p) = p + 1 :=
  size32_of_bounds le_rfl (by rw [Nat.pow_succ]; have := Nat.pos_pow_of_pos p (show 0 < 2 by norm_num); omega) hp

/-- Distribute a right shift over a masked value. -/
theorem and_shiftLeft_shiftRight (x m lo : Nat) :
    (x &&& (m <<< lo)) >>> lo = (x >>> lo) &&& m := by
  apply Nat.eq_of_testBit_eq
  intro i
  simp [Nat.testBit_and, Nat.testBit_shiftRight, Nat.testBit_shiftLeft]

/-- On a 32-bit value, extracting the bits from `32 - p` up to 32 is division
by `2^(32-p)`. -/
theorem eb32_top (x p : Nat) (hp4 : 4 ≤ p) (hp16 : p ≤ 16) (hx : x < 2 ^ 32) :
    eb32 x 32 (u8 (32 + 256 - u8 p)) = x / 2 ^ (32 - p) := by
  have hu8p : u8 p = p := u8_eq (by omega)
  have hlo : u8 (32 + 256 - p) = 32 - p := by unfold u8; omega
  rw [hu8p, hlo]
  unfold eb32
  dsimp only
  have hd : u8 (u8 32 + 256 - u8 (32 - p)) = p := by unfold u8; omega
  rw [hd]
  have hq1 : (16 : Nat) ≤ 2 ^ p := by
    calc (16 : Nat) = 2 ^ 4 := by norm_num
    _ ≤ 2 ^ p := Nat.pow_le_pow_right (by norm_num) hp4
  have hq2 : (2 : Nat) ^ p ≤ 65536 := by
    calc (2 : Nat) ^ p ≤ 2 ^ 16 := Nat.pow_le_pow_right (by norm_num) hp16
    _ = 65536 := by norm_num
  have h1 : u32 (1 <<< p) = 2 ^ p := by
    rw [Nat.one_shiftLeft]; exact u32_eq (by omega)
  rw [h1]
  have h2 : u32 (2 ^ p + 4294967296 - 1) = 2 ^ p - 1 := by
    unfold u32; omega
  rw [h2]
  have hu8lo : u8 (32 - p) = 32 - p := u8_eq (by omega)
  rw [hu8lo]
  have hadd : 32 - p + p = 32 := by omega
  have hsplit : (2 : Nat) ^ (32 - p) * 2 ^ p = 2 ^ 32 := by
    rw [← Nat.pow_add, hadd]
  have h3 : u32 ((2 ^ p - 1) <<< (32 - p)) = (2 ^ p - 1) <<< (32 - p) := by
    apply u32_eq
    rw [Nat.shiftLeft_eq]
    have : (2 ^ p - 1) * 2 ^ (32 - p) < 2 ^ p * 2 ^ (32 - p) :=
      (Nat.mul_lt_mul_right (Nat.pos_pow_of_pos _ (by norm_num))).mpr (by omega)
    calc (2 ^ p - 1) * 2 ^ (32 - p) < 2 ^ p * 2 ^ (32 - p) := this
    _ = 2 ^ 32 := by rw [Nat.mul_comm]; exact hsplit
    _ = 4294967296 := by norm_num
  rw [h3, u32_eq hx, and_shiftLeft_shiftRight]
  have hxloLt : x >>> (32 - p) < 2 ^ p := by
    rw [Nat.shiftRight_eq_div_pow]
    apply Nat.div_lt_of_lt_mul
    rw [Nat.mul_comm, hsplit] at *
    exact hx
  rw [Nat.and_pow_two_sub_one_eq_mod, Nat.mod_eq_of_lt hxloLt, Nat.shiftRight_eq_div_pow]

/-- The value `w` computed by `Add`: the low `32-p` bits of the hash shifted
left by `p`, plus the sentinel bit `2^(p-1)`. -/
theorem add_w_eq (x p : Nat) (hp4 : 4 ≤ p) (hp16 : p ≤ 16) :
    u32 (u32 (x <<< u8 p) ||| u32 (1 <<< u8 (p + 255))) =
      x % 2 ^ (32 - p) * 2 ^ p + 2 ^ (p - 1) := by
  have hu8p : u8 p = p := u8_eq (by omega)
  have hs : u8 (p + 255) = p - 1 := by unfold u8; omega
  rw [hu8p, hs]
  have hsplit : (2 : Nat) ^ (32 - p) * 2 ^ p = 2 ^ 32 := by
    rw [← Nat.pow_add]; congr 1; omega
  have h1 : u32 (x <<< p) = x % 2 ^ (32 - p) * 2 ^ p := by
    rw [Nat.shiftLeft_eq]
    unfold u32
    have : (4294967296 : Nat) = 2 ^ (32 - p) * 2 ^ p := by rw [hsplit]; norm_num
    rw [this, Nat.mul_mod_mul_right]
  have hsent_lt : (2 : Nat) ^ (p - 1) < 2 ^ p :=
    Nat.pow_lt_pow_right (by norm_num) (by omega)
  have h2 : u32 (1 <<< (p - 1)) = 2 ^ (p - 1) := by
    rw [Nat.one_shiftLeft]
    apply u32_eq
    have : (2 : Nat) ^ (p - 1) ≤ 2 ^ 16 := Nat.pow_le_pow_right (by norm_num) (by omega)
    norm_num at this; omega
  rw [h1, h2]
  have hor : x % 2 ^ (32 - p) * 2 ^ p ||| 2 ^ (p - 1) =
      x % 2 ^ (32 - p) * 2 ^ p + 2 ^ (p - 1) := by
    rw [Nat.mul_comm (x % 2 ^ (32 - p))]
    exact (Nat.mul_add_lt_is_or hsent_lt _).symm
  rw [hor]
  apply u32_eq
  have hmod : x % 2 ^ (32 - p) < 2 ^ (32 - p) :=
    Nat.mod_lt _ (Nat.pos_pow_of_pos _ (by norm_num))
  have : x % 2 ^ (32 - p) * 2 ^ p + 2 ^ p ≤ 2 ^ 32 := by
    calc x % 2 ^ (32 - p) * 2 ^ p + 2 ^ p = (x % 2 ^ (32 - p) + 1) * 2 ^ p := by ring
    _ ≤ 2 ^ (32 - p) * 2 ^ p := Nat.mul_le_mul_right _ (by omega)
    _ = 2 ^ 32 := hsplit
  norm_num at this ⊢
  omega

/-- `Add`, rewritten with the decoded index and rank. -/
theorem Add_eq (h : HyperLogLog) (x : Nat) (hp4 : 4 ≤ h.p) (hp16 : h.p ≤ 16)
    (hx : x < 2 ^ 32) :
    Add h x =
      if clz32 (x % 2 ^ (32 - h.p) * 2 ^ h.p + 2 ^ (h.p - 1)) + 1 >
          h.reg.getD (x / 2 ^ (32 - h.p)) 0 then
        { h with reg := h.reg.set (x / 2 ^ (32 - h.p)) (clz32 (x % 2 ^ (32 - h.p) * 2 ^ h.p + 2 ^ (h.p - 1)) + 1) }
      else h := by
  unfold Add
  rw [eb32_top x h.p hp4 hp16 hx, add_w_eq x h.p hp4 hp16]

/-! Helper lemmas about lists of registers. -/

theorem getD_set_self (l : List Nat) (i a : Nat) (h : i < l.length) :
    (l.set i a).getD i 0 = a := by
  simp [List.getD_eq_getElem?_getD, List.getElem?_set_self h]

theorem getD_set_ne (l : List Nat) {i j : Nat} (a : Nat) (h : j ≠ i) :
    (l.set i a).getD j 0 = l.getD j 0 := by
  simp [List.getD_eq_getElem?_getD, List.getElem?_set_ne (Ne.symm h)]

theorem getD_replicate {n j : Nat} (h : j < n) :
    (List.replicate n (0 : Nat)).getD j 0 = 0 := by
  simp [List.getD_eq_getElem?_getD, List.getElem?_replicate, h]

theorem maxRegs_length : ∀ a b : List Nat, b.length ≤ a.length →
    (maxRegs a b).length = a.length := by
  intro a
  induction a with
  | nil =>
    intro b hb
    have : b = [] := by cases b <;> simp_all
    subst this; rfl
  | cons x a ih =>
    intro b hb
    cases b with
    | nil => simp [maxRegs]
    | cons y b => simp [maxRegs, ih b (by simpa using hb)]

theorem maxRegs_getD : ∀ a b : List Nat, a.length = b.length → ∀ i,
    (maxRegs a b).getD i 0 = max (a.getD i 0) (b.getD i 0) := by
  intro a
  induction a with
  | nil =>
    intro b hb i
    have : b = [] := by cases b <;> simp_all
    subst this
    simp [maxRegs]
  | cons x a ih =>
    intro b hb i
    cases b with
    | nil => simp at hb
    | cons y b =>
      cases i with
      | zero => simp [maxRegs]
      | succ i => simpa [maxRegs] using ih b (by simpa using hb) i

theorem maxRegs_comm : ∀ a b : List Nat, a.length = b.length →
    maxRegs a b = maxRegs b a := by
  intro a
  induction a with
  | nil =>
    intro b hb
    have : b = [] := by cases b <;> simp_all
    subst this; rfl
  | cons x a ih =>
    intro b hb
    cases b with
    | nil => simp at hb
    | cons y b =>
      simp only [maxRegs]
      exact congrArg₂ (· :: ·) (Nat.max_comm x y) (ih b (by simpa using hb))

theorem maxRegs_assoc : ∀ a b c : List Nat, a.length = b.length → b.length = c.length →
    maxRegs (maxRegs a b) c = maxRegs a (maxRegs b c) := by
  intro a
  induction a with
  | nil =>
    intro b c hab hbc
    cases b with
    | nil =>
      cases c with
      | nil => rfl
      | cons z c => simp at hbc
    | cons y b => simp at hab
  | cons x a ih =>
    intro b c hab hbc
    cases b with
    | nil => simp at hab
    | cons y b =>
      cases c with
      | nil => simp at hbc
      | cons z c =>
        simp only [maxRegs]
        exact congrArg₂ (· :: ·) (Nat.max_assoc x y z)
          (ih b c (by simpa using hab) (by simpa using hbc))

theorem maxRegs_self : ∀ a : List Nat, maxRegs a a = a := by
  intro a
  induction a with
  | nil => rfl
  | cons x a ih => simp [maxRegs, ih]

theorem maxRegs_dominated : ∀ a b : List Nat, a.length = b.length →
    (∀ i, i < b.length → b.getD i 0 ≤ a.getD i 0) → maxRegs a b = a := by
  intro a
  induction a with
  | nil =>
    intro b hb _
    have : b = [] := by cases b <;> simp_all
    subst this; rfl
  | cons x a ih =>
    intro b hb hdom
    cases b with
    | nil => rfl
    | cons y b =>
      simp only [maxRegs]
      have h0 := hdom 0 (by simp)
      simp only [List.getD_cons_zero] at h0
      refine congrArg₂ (· :: ·) (Nat.max_eq_left h0) (ih b (by simpa using hb) ?_)
      intro i hi
      have := hdom (i + 1) (by simpa using hi)
      simpa using this

theorem mem_maxRegs_le {n : Nat} : ∀ a b : List Nat, (∀ r ∈ a, r ≤ n) → (∀ r ∈ b, r ≤ n) →
    ∀ r ∈ maxRegs a b, r ≤ n := by
  intro a
  induction a with
  | nil =>
    intro b _ hb r hr
    cases b with
    | nil => simp [maxRegs] at hr
    | cons y b => simp [maxRegs] at hr
  | cons x a ih =>
    intro b ha hb r hr
    cases b with
    | nil => exact ha r hr
    | cons y b =>
      simp only [maxRegs, List.mem_cons] at hr
      rcases hr with h | h
      · have hx := ha x (by simp)
        have hy := hb y (by simp)
        subst h; omega
      · exact ih b (fun r hr => ha r (by simp [hr])) (fun r hr => hb r (by simp [hr])) r h

/-! Helper lemmas about construction and the register-value bound. -/

theorem New_ok {p : Nat} (hp4 : 4 ≤ p) (hp16 : p ≤ 16) :
    New p = .ok { reg := List.replicate (2 ^ p) 0, m := 2 ^ p, p := p } := by
  unfold New
  rw [if_neg (by omega), Nat.one_shiftLeft]

theorem New_err {p : Nat} (hp : p < 4 ∨ 16 < p) :
    New p = .error "precision must be between 4 and 16" := by
  unfold New
  rw [if_pos (by omega)]

theorem NewReg_ok (reg : List Nat) (p : Nat) (hp4 : 4 ≤ p) (hp16 : p ≤ 16)
    (hlen : reg.length = 2 ^ p) :
    NewReg reg = .ok { reg := reg, m := 2 ^ p, p := p } := by
  have hq1 : (16 : Nat) ≤ 2 ^ p := by
    calc (16 : Nat) = 2 ^ 4 := by norm_num
    _ ≤ 2 ^ p := Nat.pow_le_pow_right (by norm_num) hp4
  have hq2 : (2 : Nat) ^ p ≤ 65536 := by
    calc (2 : Nat) ^ p ≤ 2 ^ 16 := Nat.pow_le_pow_right (by norm_num) hp16
    _ = 65536 := by norm_num
  unfold NewReg
  rw [if_neg (by rw [hlen, Nat.one_shiftLeft, Nat.one_shiftLeft]; norm_num; omega)]
  have hsz : size32 reg.length = p + 1 := by rw [hlen]; exact size32_two_pow (by omega)
  have hclz : 31 - clz32 reg.length = p := by
    unfold clz32
    rw [hsz]
    omega
  dsimp only
  rw [hclz, Nat.one_shiftLeft, if_neg (by simp [hlen])]

theorem NewReg_range_err (reg : List Nat) (h : reg.length < 16 ∨ 65536 < reg.length) :
    NewReg reg = .error "number of registers out of range" := by
  unfold NewReg
  rw [if_pos (by rw [Nat.one_shiftLeft, Nat.one_shiftLeft]; norm_num; omega)]

theorem NewReg_pow_err (reg : List Nat) (h1 : 16 ≤ reg.length) (h2 : reg.length ≤ 65536)
    (h3 : ∀ k, reg.length ≠ 2 ^ k) :
    NewReg reg = .error "invalid number of registers (must be power of 2)" := by
  unfold NewReg
  rw [if_neg (by rw [Nat.one_shiftLeft, Nat.one_shiftLeft]; norm_num; omega)]
  rw [if_pos (by rw [Nat.one_shiftLeft]; exact (h3 _).symm)]

/-- A register length in `[16, 65536]` that is not reached by `NewReg_range_err`
or `NewReg_pow_err` is a power of two with exponent in `[4, 16]`. -/
theorem length_pow_bounds {len k : Nat} (hlen : len = 2 ^ k) (h1 : 16 ≤ len)
    (h2 : len ≤ 65536) : 4 ≤ k ∧ k ≤ 16 := by
  subst hlen
  constructor
  · by_contra hk
    push_neg at hk
    have : (2 : Nat) ^ k ≤ 2 ^ 3 := Nat.pow_le_pow_right (by norm_num) (by omega)
    norm_num at this
    omega
  · by_contra hk
    push_neg at hk
    have : (2 : Nat) ^ 17 ≤ 2 ^ k := Nat.pow_le_pow_right (by norm_num) (by omega)
    norm_num at this
    omega

/-- The rank computed by `Add` never exceeds `33 - p`: the sentinel bit keeps
`w` at least `2^(p-1)`, so at most `32 - p` leading zeros remain. -/
theorem rank_le (x p : Nat) (hp4 : 4 ≤ p) (hp16 : p ≤ 16) :
    clz32 (x % 2 ^ (32 - p) * 2 ^ p + 2 ^ (p - 1)) + 1 ≤ 33 - p := by
  set w := x % 2 ^ (32 - p) * 2 ^ p + 2 ^ (p - 1) with hw
  have hadd : 32 - p + p = 32 := by omega
  have hsplit : (2 : Nat) ^ (32 - p) * 2 ^ p = 2 ^ 32 := by
    rw [← Nat.pow_add, hadd]
  have hlow : 2 ^ (p - 1) ≤ w := by omega
  have hhigh : w < 2 ^ 32 := by
    have hmod : x % 2 ^ (32 - p) < 2 ^ (32 - p) :=
      Nat.mod_lt _ (Nat.pos_pow_of_pos _ (by norm_num))
    have hsent_lt : (2 : Nat) ^ (p - 1) < 2 ^ p :=
      Nat.pow_lt_pow_right (by norm_num) (by omega)
    have : x % 2 ^ (32 - p) * 2 ^ p + 2 ^ p ≤ 2 ^ 32 := by
      calc x % 2 ^ (32 - p) * 2 ^ p + 2 ^ p = (x % 2 ^ (32 - p) + 1) * 2 ^ p := by ring
      _ ≤ 2 ^ (32 - p) * 2 ^ p := Nat.mul_le_mul_right _ (by omega)
      _ = 2 ^ 32 := hsplit
    omega
  have hsz_le : size32 w ≤ 32 := size32_le w
  have hsz_ge : p - 1 < size32 w := by
    unfold size32
    apply lt_sizeAux
    · rwa [u32_eq (by norm_num at hhigh ⊢; omega)]
    · omega
  unfold clz32
  omega

/-- Claim C2: for every sketch of precision `p` and 32-bit hash `x`, `Add`
buckets by the top `p` bits of `x` (index `i = x / 2^(32-p)`), forms `w` from
the low `32-p` bits shifted left by `p` with the sentinel bit `2^(p-1)` set,
computes `rank = clz32 w + 1`, sets `registers[i]` to `max(registers[i],
rank)` and leaves every other register unchanged; concretely at `p = 16`,
hash `0x00010fff` sets register 1 to 5, `0x0002ffff` sets register 2 to 1,
and `0x00030000` then `0x00030001` leaves register 3 at 17. -/
theorem claim_C2 :
    (∀ (h : HyperLogLog) (x : Nat), 4 ≤ h.p → h.p ≤ 16 → x < 2 ^ 32 →
      h.reg.length = 2 ^ h.p →
      (Add h x).p = h.p ∧ (Add h x).m = h.m ∧ (Add h x).reg.length = h.reg.length ∧
      (Add h x).reg.getD (x / 2 ^ (32 - h.p)) 0 =
        max (h.reg.getD (x / 2 ^ (32 - h.p)) 0)
          (clz32 ((x % 2 ^ (32 - h.p)) <<< h.p ||| 2 ^ (h.p - 1)) + 1) ∧
      ∀ j, j ≠ x / 2 ^ (32 - h.p) → (Add h x).reg.getD j 0 = h.reg.getD j 0) ∧
    ((Add { reg := List.replicate (2 ^ 16) 0, m := 2 ^ 16, p := 16 }
        0x00010fff).reg.getD 1 0 = 5 ∧
      (Add { reg := List.replicate (2 ^ 16) 0, m := 2 ^ 16, p := 16 }
        0x0002ffff).reg.getD 2 0 = 1 ∧
      (Add (Add { reg := List.replicate (2 ^ 16) 0, m := 2 ^ 16, p := 16 }
        0x00030000) 0x00030001).reg.getD 3 0 = 17 ∧
      (Add { reg := List.replicate (2 ^ 16) 0, m := 2 ^ 16, p := 16 }
        0x00030000).reg.getD 3 0 = 17) := by
  constructor
  · intro h x hp4 hp16 hx hlen
    have hw : (x % 2 ^ (32 - h.p)) <<< h.p ||| 2 ^ (h.p - 1) =
        x % 2 ^ (32 - h.p) * 2 ^ h.p + 2 ^ (h.p - 1) := by
      have hsent_lt : (2 : Nat) ^ (h.p - 1) < 2 ^ h.p :=
        Nat.pow_lt_pow_right (by norm_num) (by omega)
      rw [Nat.shiftLeft_eq, Nat.mul_comm (x % 2 ^ (32 - h.p))]
      exact (Nat.mul_add_lt_is_or hsent_lt _).symm
    rw [hw, Add_eq h x hp4 hp16 hx]
    have hi : x / 2 ^ (32 - h.p) < h.reg.length := by
      rw [hlen]
      apply Nat.div_lt_of_lt_mul
      have hadd : 32 - h.p + h.p = 32 := by omega
      calc x < 2 ^ 32 := hx
      _ = 2 ^ (32 - h.p) * 2 ^ h.p := by rw [← Nat.pow_add, hadd]
    split
    · rename_i hgt
      refine ⟨rfl, rfl, by simp, ?_, ?_⟩
      · rw [getD_set_self _ _ _ hi]
        exact (Nat.max_eq_right (Nat.le_of_lt hgt)).symm
      · intro j hj
        exact getD_set_ne _ _ hj
    · rename_i hle
      refine ⟨rfl, rfl, rfl, ?_, fun _ _ => rfl⟩
      exact (Nat.max_eq_left (Nat.not_lt.mp hle)).symm
  · exact ⟨by decide, by decide, by decide, by decide⟩

/-- Witness for claim C2 at sketch `⟨replicate 2^16 0, 2^16, 16⟩` and hash
`0x00010fff`. -/
theorem claim_C2_witness :
    (Add { reg := List.replicate (2 ^ 16) 0, m := 2 ^ 16, p := 16 }
        0x00010fff).reg.getD (0x00010fff / 2 ^ (32 - 16)) 0 =
      max ((List.replicate (2 ^ 16) (0 : Nat)).getD (0x00010fff / 2 ^ (32 - 16)) 0)
        (clz32 ((0x00010fff % 2 ^ (32 - 16)) <<< 16 ||| 2 ^ (16 - 1)) + 1) :=
  (claim_C2.1 { reg := List.replicate (2 ^ 16) 0, m := 2 ^ 16, p := 16 }
    0x00010fff (by decide) (by decide) (by decide)
    (by rw [List.length_replicate])).2.2.2.1

/-- Claim C3: `Merge` fails exactly when the two precisions differ; on equal
precisions it succeeds, every register of the receiver becomes the pointwise
maximum with the other sketch's register, and the other sketch is unchanged
(the embedding is functional, so `other` cannot be mutated; `Merge` only
reads it). -/
theorem claim_C3 : ∀ h other : HyperLogLog,
    ((∃ e, Merge h other = .error e) ↔ h.p ≠ other.p) ∧
    (h.p = other.p → h.reg.length = other.reg.length →
      Merge h other = .ok { reg := maxRegs h.reg other.reg, m := h.m, p := h.p } ∧
      ∀ i, (maxRegs h.reg other.reg).getD i 0 =
        max (h.reg.getD i 0) (other.reg.getD i 0)) := by
  intro h other
  by_cases hp : h.p = other.p
  · have hok : Merge h other = .ok { h with reg := maxRegs h.reg other.reg } := by
      unfold Merge
      rw [if_neg (by simpa using hp)]
    constructor
    · constructor
      · rintro ⟨e, he⟩
        rw [hok] at he
        exact absurd he (by simp)
      · intro hne
        exact absurd hp hne
    · intro _ hlen
      exact ⟨hok, maxRegs_getD h.reg other.reg hlen⟩
  · have herr : Merge h other = .error "precisions must be equal" := by
      unfold Merge
      rw [if_pos hp]
    constructor
    · exact ⟨fun _ => hp, fun _ => ⟨_, herr⟩⟩
    · intro hpe
      exact absurd hpe hp

/-- Witness for claim C3 at two concrete sketches of equal precision. -/
theorem claim_C3_witness :
    Merge { reg := [3, 1], m := 2, p := 1 } { reg := [2, 5], m := 2, p := 1 } =
      .ok { reg := maxRegs [3, 1] [2, 5], m := 2, p := 1 } ∧
    (maxRegs [3, 1] [2, 5]).getD 0 0 = max 3 2 := by
  have h := (claim_C3 { reg := [3, 1], m := 2, p := 1 }
    { reg := [2, 5], m := 2, p := 1 }).2 (by decide) (by decide)
  exact ⟨h.1, h.2 0⟩

/-- Claim C4: on register vectors of equal length, the merge combination is
commutative, associative, idempotent, and a no-op when the other vector is
dominated pointwise by the receiver. -/
theorem claim_C4 : ∀ a b c : List Nat, a.length = b.length → b.length = c.length →
    maxRegs a b = maxRegs b a ∧
    maxRegs (maxRegs a b) c = maxRegs a (maxRegs b c) ∧
    maxRegs a a = a ∧
    ((∀ i, i < b.length → b.getD i 0 ≤ a.getD i 0) → maxRegs a b = a) := by
  intro a b c hab hbc
  exact ⟨maxRegs_comm a b hab, maxRegs_assoc a b c hab hbc, maxRegs_self a,
    maxRegs_dominated a b hab⟩

/-- Witness for claim C4 at concrete register vectors. -/
theorem claim_C4_witness :
    maxRegs [3, 4] [1, 2] = maxRegs [1, 2] [3, 4] ∧
    maxRegs (maxRegs [3, 4] [1, 2]) [0, 9] = maxRegs [3, 4] (maxRegs [1, 2] [0, 9]) ∧
    maxRegs [3, 4] [3, 4] = [3, 4] ∧
    maxRegs [3, 4] [1, 2] = [3, 4] := by
  have h := claim_C4 [3, 4] [1, 2] [0, 9] (by decide) (by decide)
  exact ⟨h.1, h.2.1, h.2.2.1, h.2.2.2 (by decide)⟩

/-- A number strictly between consecutive powers of two is not a power of
two. -/
theorem ne_two_pow {n a : Nat} (h1 : 2 ^ a < n) (h2 : n < 2 ^ (a + 1)) :
    ∀ k, n ≠ 2 ^ k := by
  intro k hk
  subst hk
  have ha : a < k := (Nat.pow_lt_pow_iff_right (by norm_num)).mp h1
  have hk' : k < a + 1 := (Nat.pow_lt_pow_iff_right (by norm_num)).mp h2
  omega

/-- Claim C7: `NewReg` succeeds exactly on buffers whose length is a power of
two in `[16, 65536]`, deriving `p = log2(length)` and `m = length`; lengths
out of range give the "out of range" error and in-range non-powers of two
give the distinct "power of 2" error. -/
theorem claim_C7 : ∀ reg : List Nat,
    ((NewReg reg = .ok { reg := reg, m := reg.length, p := Nat.log2 reg.length }) ↔
      16 ≤ reg.length ∧ reg.length ≤ 65536 ∧ ∃ k, reg.length = 2 ^ k) ∧
    (∀ g, NewReg reg = .ok g →
      g.reg = reg ∧ g.m = reg.length ∧ g.p = Nat.log2 reg.length ∧
      2 ^ g.p = reg.length) ∧
    (reg.length < 16 ∨ 65536 < reg.length →
      NewReg reg = .error "number of registers out of range") ∧
    (16 ≤ reg.length → reg.length ≤ 65536 → (∀ k, reg.length ≠ 2 ^ k) →
      NewReg reg = .error "invalid number of registers (must be power of 2)") := by
  intro reg
  refine ⟨?_, ?_, NewReg_range_err reg, NewReg_pow_err reg⟩
  · constructor
    · intro hg
      by_cases hrange : 16 ≤ reg.length ∧ reg.length ≤ 65536
      · refine ⟨hrange.1, hrange.2, ?_⟩
        by_contra hpow
        push_neg at hpow
        rw [NewReg_pow_err reg hrange.1 hrange.2 hpow] at hg
        exact absurd hg (by simp)
      · rw [NewReg_range_err reg (by omega)] at hg
        exact absurd hg (by simp)
    · rintro ⟨h1, h2, k, hk⟩
      obtain ⟨hk4, hk16⟩ := length_pow_bounds hk h1 h2
      rw [NewReg_ok reg k hk4 hk16 hk, hk, Nat.log2_two_pow]
  · intro g hg
    by_cases hrange : 16 ≤ reg.length ∧ reg.length ≤ 65536
    · by_cases hpow : ∃ k, reg.length = 2 ^ k
      · obtain ⟨k, hk⟩ := hpow
        obtain ⟨hk4, hk16⟩ := length_pow_bounds hk hrange.1 hrange.2
        rw [NewReg_ok reg k hk4 hk16 hk] at hg
        have hgv : g = { reg := reg, m := 2 ^ k, p := k } := by
          exact (Except.ok.injEq _ _).mp hg.symm
        subst hgv
        refine ⟨rfl, hk.symm, ?_, hk.symm⟩
        rw [hk, Nat.log2_two_pow]
      · push_neg at hpow
        rw [NewReg_pow_err reg hrange.1 hrange.2 hpow] at hg
        exact absurd hg (by simp)
    · rw [NewReg_range_err reg (by omega)] at hg
      exact absurd hg (by simp)

/-- Witness for claim C7: length 8 is rejected as out of range, lengths 17
and 100 are rejected as non-powers of two, length 16 is accepted. -/
theorem claim_C7_witness :
    NewReg (List.replicate 8 0) = .error "number of registers out of range" ∧
    NewReg (List.replicate 17 0) =
      .error "invalid number of registers (must be power of 2)" ∧
    NewReg (List.replicate 100 0) =
      .error "invalid number of registers (must be power of 2)" ∧
    NewReg (List.replicate 16 0) =
      .ok { reg := List.replicate 16 0, m := (List.replicate 16 0).length,
            p := Nat.log2 (List.replicate 16 0).length } := by
  refine ⟨(claim_C7 _).2.2.1 (by simp), ?_, ?_, ?_⟩
  · apply (claim_C7 _).2.2.2 (by simp) (by simp)
    simpa using ne_two_pow (a := 4) (by decide) (by decide)
  · apply (claim_C7 _).2.2.2 (by simp) (by simp)
    simpa using ne_two_pow (a := 6) (by decide) (by decide)
  · exact (claim_C7 _).1.mpr ⟨by simp, by simp, 4, by simp⟩

/-- Claim C10: starting from `New p` and applying any sequence of `Add` (with
32-bit hashes), `Clear`, and `Merge` operations whose merged-in sketches also
obey the bound, every register stays at most `33 - p`: the sentinel bit keeps
the rank at most `33 - p`, strictly tighter than the spec's range `[0, 33]`. -/
theorem claim_C10 (p : Nat) (ops : List Op) (hp4 : 4 ≤ p) (hp16 : p ≤ 16)
    (hadds : ∀ x, Op.add x ∈ ops → x < 2 ^ 32)
    (hmerges : ∀ g, Op.merge g ∈ ops → ∀ r ∈ g.reg, r ≤ 33 - g.p)
    (h0 : HyperLogLog) (hok : New p = .ok h0) :
    ∀ r ∈ (runOps h0 ops).reg, r ≤ 33 - p := by
  have step : ∀ (h : HyperLogLog) (o : Op), h.p = p → (∀ r ∈ h.reg, r ≤ 33 - p) →
      (∀ x, o = .add x → x < 2 ^ 32) → (∀ g, o = .merge g → ∀ r ∈ g.reg, r ≤ 33 - g.p) →
      (applyOp h o).p = p ∧ ∀ r ∈ (applyOp h o).reg, r ≤ 33 - p := by
    intro h o hp hreg hoa hom
    cases o with
    | add x =>
      have hx : x < 2 ^ 32 := hoa x rfl
      show (Add h x).p = p ∧ ∀ r ∈ (Add h x).reg, r ≤ 33 - p
      rw [Add_eq h x (by omega) (by omega) hx]
      split
      · refine ⟨hp, ?_⟩
        intro r hr
        rcases List.mem_or_eq_of_mem_set hr with hmem | hrank
        · exact hreg r hmem
        · rw [hrank, hp]
          exact rank_le x p hp4 hp16
      · exact ⟨hp, hreg⟩
    | clear =>
      refine ⟨hp, ?_⟩
      intro r hr
      have := List.eq_of_mem_replicate hr
      omega
    | merge g =>
      by_cases hpg : h.p = g.p
      · have happ : applyOp h (Op.merge g) = { h with reg := maxRegs h.reg g.reg } := by
          simp [applyOp, Merge, hpg]
        rw [happ]
        refine ⟨hp, ?_⟩
        apply mem_maxRegs_le h.reg g.reg hreg
        have := hom g rfl
        rw [← hpg, hp] at this
        exact this
      · have happ : applyOp h (Op.merge g) = h := by
          simp [applyOp, Merge, hpg]
        rw [happ]
        exact ⟨hp, hreg⟩
  have main : ∀ (l : List Op), (∀ x, Op.add x ∈ l → x < 2 ^ 32) →
      (∀ g, Op.merge g ∈ l → ∀ r ∈ g.reg, r ≤ 33 - g.p) →
      ∀ h : HyperLogLog, h.p = p → (∀ r ∈ h.reg, r ≤ 33 - p) →
      (runOps h l).p = p ∧ ∀ r ∈ (runOps h l).reg, r ≤ 33 - p := by
    intro l
    induction l with
    | nil => intro _ _ h hp hreg; exact ⟨hp, hreg⟩
    | cons o l ih =>
      intro ha hm h hp hreg
      have hstep := step h o hp hreg
        (fun x hx => ha x (by rw [hx]; exact List.mem_cons_self _ _))
        (fun g hg => hm g (by rw [hg]; exact List.mem_cons_self _ _))
      have := ih (fun x hx => ha x (List.mem_cons_of_mem _ hx))
        (fun g hg => hm g (List.mem_cons_of_mem _ hg))
        (applyOp h o) hstep.1 hstep.2
      exact this
  have h0v : h0 = { reg := List.replicate (2 ^ p) 0, m := 2 ^ p, p := p } := by
    rw [New_ok hp4 hp16] at hok
    exact ((Except.ok.injEq _ _).mp hok).symm
  subst h0v
  refine (main ops hadds hmerges _ rfl ?_).2
  intro r hr
  have := List.eq_of_mem_replicate hr
  omega

/-- Witness for claim C10 at `p = 4` with a concrete operation sequence. -/
theorem claim_C10_witness :
    (runOps { reg := List.replicate (2 ^ 4) 0, m := 2 ^ 4, p := 4 }
      [Op.add 5, Op.clear, Op.add 4096]).reg.getD 0 0 ≤ 33 - 4 := by
  have hmem : (runOps { reg := List.replicate (2 ^ 4) 0, m := 2 ^ 4, p := 4 }
      [Op.add 5, Op.clear, Op.add 4096]).reg.getD 0 0 ∈
      (runOps { reg := List.replicate (2 ^ 4) 0, m := 2 ^ 4, p := 4 }
      [Op.add 5, Op.clear, Op.add 4096]).reg := by decide
  apply claim_C10 4 [Op.add 5, Op.clear, Op.add 4096] (by decide) (by decide)
    (by intro x hx; simp at hx; rcases hx with h | h <;> omega)
    (by
      intro g hg
      simp at hg)
    _ (New_ok (by decide) (by decide)) _ hmem

theorem readU32le_enc (n : Nat) (rest : List Nat) (hn : n < 4294967296) :
    readU32le (encU32le n ++ rest) = some (n, rest) := by
  simp only [encU32le, List.cons_append, List.nil_append, readU32le]
  refine congrArg some ?_
  refine Prod.ext ?_ rfl
  show n % 256 + 256 * (n / 256 % 256) + 65536 * (n / 65536 % 256) +
    16777216 * (n / 16777216 % 256) = n
  omega

/-- Claim C6: decoding the binary encoding of any representable sketch —
registers, then `m` as unsigned 32-bit, then `p` as unsigned 8-bit, written
and read in that order — succeeds and returns an equal sketch, including for
the never-mutated zero-value instance. -/
theorem claim_C6 (h : HyperLogLog) (hlen : h.reg.length < 4294967296)
    (hm : h.m < 4294967296) (hp : h.p < 256) :
    GobDecode (GobEncode h) = .ok h := by
  unfold GobEncode
  rw [List.append_assoc, List.append_assoc]
  unfold GobDecode
  rw [readU32le_enc _ _ hlen]
  dsimp only
  have hle : h.reg.length ≤ (h.reg ++ (encU32le h.m ++ [u8 h.p])).length := by
    simp
  rw [if_pos hle, List.drop_left, readU32le_enc _ _ hm]
  dsimp only
  rw [List.take_left, u8_eq hp]

/-- Witness for claim C6 at the zero-value instance. -/
theorem claim_C6_witness :
    GobDecode (GobEncode { reg := [], m := 0, p := 0 }) =
      .ok { reg := [], m := 0, p := 0 } :=
  claim_C6 { reg := [], m := 0, p := 0 } (by decide) (by decide) (by decide)

theorem decEnc_fin : ∀ s : Fin 64, decChar (encChar s.val) = some s.val := by decide

theorem encNePad_fin : ∀ s : Fin 64, encChar s.val ≠ '=' := by decide

theorem decEnc {s : Nat} (hs : s < 64) : decChar (encChar s) = some s :=
  decEnc_fin ⟨s, hs⟩

theorem encNePad {s : Nat} (hs : s < 64) : encChar s ≠ '=' :=
  encNePad_fin ⟨s, hs⟩

/-- Standard padded base64 round-trips on byte lists. -/
theorem b64_roundtrip : ∀ l : List Nat, (∀ x ∈ l, x < 256) →
    b64decode (b64encode l) = some l := by
  intro l
  induction l using b64encode.induct with
  | case1 => intro _; rfl
  | case2 a =>
    intro hb
    have ha : a < 256 := hb a (by simp)
    have h0 : a / 4 < 64 := by omega
    have h1 : a % 4 * 16 < 64 := by omega
    simp [b64encode, b64decode, decEnc h0, decEnc h1]
    omega
  | case3 a b =>
    intro hb
    have ha : a < 256 := hb a (by simp)
    have hbb : b < 256 := hb b (by simp)
    have h0 : a / 4 < 64 := by omega
    have h1 : a % 4 * 16 + b / 16 < 64 := by omega
    have h2 : b % 16 * 4 < 64 := by omega
    simp [b64encode, b64decode, decEnc h0, decEnc h1, decEnc h2, encNePad h2]
    omega
  | case4 a b c rest ih =>
    intro hb
    have ha : a < 256 := hb a (by simp)
    have hbb : b < 256 := hb b (by simp)
    have hc : c < 256 := hb c (by simp)
    have hrest : ∀ x ∈ rest, x < 256 := fun x hx => hb x (by simp [hx])
    have h0 : a / 4 < 64 := by omega
    have h1 : a % 4 * 16 + b / 16 < 64 := by omega
    have h2 : b % 16 * 4 + c / 64 < 64 := by omega
    have h3 : c % 64 < 64 := by omega
    simp [b64encode, b64decode, decEnc h0, decEnc h1, decEnc h2, decEnc h3,
      encNePad h2, encNePad h3, ih hrest]
    omega

/-- Claim C5: `UnmarshalText` after `MarshalText` reconstructs any validly
constructed (hence non-empty) sketch — the registers travel as standard
padded base64 and `p`, `m` are re-derived by the `NewReg` validation — and a
successfully decoded byte string whose length is out of range or not a power
of two makes `UnmarshalText` fail rather than truncate or pad. -/
theorem claim_C5 :
    (∀ h : HyperLogLog, Valid h → UnmarshalText (MarshalText h) = .ok h) ∧
    (∀ (text : List Char) (reg : List Nat), b64decode text = some reg →
      (reg.length < 16 ∨ 65536 < reg.length ∨ ∀ k, reg.length ≠ 2 ^ k) →
      ∃ e, UnmarshalText text = .error e) := by
  constructor
  · intro h hv
    obtain ⟨hp4, hp16, hm, hlen, hbytes⟩ := hv
    unfold MarshalText UnmarshalText
    rw [b64_roundtrip h.reg hbytes]
    dsimp only
    rw [NewReg_ok h.reg h.p hp4 hp16 hlen, ← hm]
  · intro text reg hdec hbad
    unfold UnmarshalText
    rw [hdec]
    dsimp only
    by_cases hr : reg.length < 16 ∨ 65536 < reg.length
    · exact ⟨_, NewReg_range_err reg hr⟩
    · push_neg at hr
      have hpow : ∀ k, reg.length ≠ 2 ^ k := by
        rcases hbad with hx | hx | hx
        · omega
        · omega
        · exact hx
      exact ⟨_, NewReg_pow_err reg (by omega) (by omega) hpow⟩

/-- Witness for claim C5 at a concrete valid sketch with 16 registers. -/
theorem claim_C5_witness :
    UnmarshalText (MarshalText { reg := List.replicate 16 1, m := 16, p := 4 }) =
      .ok { reg := List.replicate 16 1, m := 16, p := 4 } :=
  claim_C5.1 { reg := List.replicate 16 1, m := 16, p := 4 } (by decide)

/-! Helper lemmas for the estimator on all-zero and empty register arrays. -/

theorem calculateEstimate_nil : calculateEstimate ([] : List Nat) = 0 := by
  simp [calculateEstimate]

theorem countZeros_nil : countZeros ([] : List Nat) = 0 := rfl

theorem countZeros_replicate (m : Nat) : countZeros (List.replicate m 0) = m := by
  simp [countZeros, List.countP_replicate]

theorem calculateEstimate_replicate_zero (m : Nat) (hm : m ≠ 0) :
    calculateEstimate (List.replicate m 0) = alpha m * m := by
  unfold calculateEstimate
  rw [if_neg (by simpa using hm)]
  rw [if_neg (by
    rintro ⟨val, hval, hz⟩
    rw [List.eq_of_mem_replicate hval] at hz
    exact absurd hz (by decide))]
  dsimp only
  rw [List.map_replicate, List.length_replicate]
  rw [show u64 (1 <<< u8 0) = 1 from rfl]
  norm_num
  rw [mul_div_assoc, div_self (by exact_mod_cast hm), mul_one]

theorem alpha_le : ∀ m : Nat, alpha m ≤ 2.5 := by
  intro m
  unfold alpha
  split_ifs
  · norm_num
  · norm_num
  · norm_num
  · have hd : (1 : ℝ) ≤ 1 + 1.079 / (m : ℝ) :=
      le_add_of_nonneg_right (div_nonneg (by norm_num) (Nat.cast_nonneg m))
    exact le_trans (div_le_self (by norm_num) hd) (by norm_num)

theorem Count_replicate_zero (p : Nat) :
    Count { reg := List.replicate (2 ^ p) 0, m := 2 ^ p, p := p } = 0 := by
  have hm : (2 : Nat) ^ p ≠ 0 := Nat.pos_iff_ne_zero.mp (Nat.pos_pow_of_pos _ (by norm_num))
  unfold Count
  dsimp only
  rw [calculateEstimate_replicate_zero (2 ^ p) hm]
  have hcond : alpha (2 ^ p) * (2 ^ p : Nat) ≤ ((2 ^ p : Nat) : ℝ) * 2.5 := by
    rw [mul_comm ((2 ^ p : Nat) : ℝ) 2.5]
    exact mul_le_mul_of_nonneg_right (alpha_le _) (Nat.cast_nonneg _)
  rw [if_pos hcond, countZeros_replicate]
  rw [if_pos hm]
  unfold linearCounting
  rw [div_self (by exact_mod_cast hm), Real.log_one, mul_zero]
  simp [trunc]

/-- Claim C8: for every precision in `[4, 16]`, `New` succeeds with `2^p`
zero registers whose `Count` is 0; outside that range it fails with the
out-of-range error. -/
theorem claim_C8 : ∀ p : Nat,
    (4 ≤ p → p ≤ 16 →
      New p = .ok { reg := List.replicate (2 ^ p) 0, m := 2 ^ p, p := p } ∧
      Count { reg := List.replicate (2 ^ p) 0, m := 2 ^ p, p := p } = 0) ∧
    (p < 4 ∨ 16 < p → New p = .error "precision must be between 4 and 16") := by
  intro p
  constructor
  · intro hp4 hp16
    exact ⟨New_ok hp4 hp16, Count_replicate_zero p⟩
  · exact New_err

/-- Witness for claim C8 at `p = 4` (success with count 0) and `p = 17`
(failure). -/
theorem claim_C8_witness :
    (New 4 = .ok { reg := List.replicate (2 ^ 4) 0, m := 2 ^ 4, p := 4 } ∧
      Count { reg := List.replicate (2 ^ 4) 0, m := 2 ^ 4, p := 4 } = 0) ∧
    New 17 = .error "precision must be between 4 and 16" :=
  ⟨(claim_C8 4).1 (by decide) (by decide), (claim_C8 17).2 (by decide)⟩

/-- Claim C9: `Count` on the never-constructed zero-value instance returns 0
without failing: the empty-array guard in `calculateEstimate` yields a raw
estimate of 0, and since no register is zero (`countZeros` of the empty array
is 0) the linear-counting division `m / V` is never reached. -/
theorem claim_C9 :
    Count { reg := [], m := 0, p := 0 } = 0 ∧ countZeros ([] : List Nat) = 0 := by
  refine ⟨?_, countZeros_nil⟩
  unfold Count
  dsimp only
  rw [calculateEstimate_nil, if_pos (by norm_num), if_neg (by simp [countZeros_nil])]
  simp [trunc]

end HLL
